import Mathlib

/-!
# Verification of the `seqlock` crate (`src/lib.rs`)

This development embeds the `SeqLock` reader-writer primitive at two levels
of granularity and proves the specification's claims about it.

* `Seq` — a sequential (single-thread) functional model of the public API:
  each Rust method becomes a pure state-passing function over a `SeqLock`
  record holding the sequence counter, the protected datum and the writer
  mutex bit.  `usize` arithmetic is `Nat` modulo a wrap modulus `W`
  (`W = 2 ^ w` for the machine word width `w`); `wrapping_add 1` is
  `(· + 1) % W`.

* `Conc` — a small-step interleaving machine for one writer and any number
  of readers sharing the lock.  The protected value is a list of `n` machine
  words; the writer mutates it one word at a time while holding the guard,
  and a reader's volatile copy proceeds one word at a time, so torn reads
  are representable.  Ghost state records the unbounded counter history, the
  sequence of committed values and the values returned by readers.
-/

namespace Seq

/-- The lock state of `SeqLock<T>` (`src/lib.rs` lines 67-71): the atomic
sequence counter `seq`, the protected datum `data : α` (the `UnsafeCell<T>`)
and the writer mutex, modelled as the bit `mutexHeld`. -/
structure SeqLock (α : Type) where
  seq : Nat
  data : α
  mutexHeld : Bool
deriving Repr, DecidableEq

/-- Rust `SeqLockGuard` (lines 78-82): it captures the sequence value returned by
`begin_write`.  The borrow of the lock is passed explicitly. -/
structure Guard where
  seq : Nat
deriving Repr, DecidableEq

variable {α : Type}

/-- Rust `SeqLock::new` (lines 97-103): counter 0, the given datum, mutex free. -/
def new (val : α) : SeqLock α :=
  { seq := 0, data := val, mutexHeld := false }

/-- Rust `SeqLock::end_write` (lines 86-91): store `seq.wrapping_add(1)` into the
counter.  It uses only the captured argument, never re-reading the shared
counter. -/
def end_write (W : Nat) (l : SeqLock α) (seq : Nat) : SeqLock α :=
  { l with seq := (seq + 1) % W }

/-- Rust `SeqLock::begin_write` (lines 153-165): load the counter, store the
wrapping successor, and return the stored value. -/
def begin_write (W : Nat) (l : SeqLock α) : Nat × SeqLock α :=
  let seq := (l.seq + 1) % W
  (seq, { l with seq := seq })

/-- Rust `SeqLock::lock_guard` (lines 168-175): after the mutex has been
acquired, run `begin_write` and package the captured sequence value into the
guard. -/
def lock_guard (W : Nat) (l : SeqLock α) : SeqLock α × Guard :=
  let p := begin_write W l
  (p.2, { seq := p.1 })

/-- Rust `SeqLock::lock_write` (lines 186-188): acquire the mutex (in the
sequential model acquisition always succeeds; a second live guard cannot
exist in a single thread without deadlock) then `lock_guard`. -/
def lock_write (W : Nat) (l : SeqLock α) : SeqLock α × Guard :=
  lock_guard W { l with mutexHeld := true }

/-- Rust `SeqLock::try_lock_write` (lines 198-200): `mutex.try_lock()` fails
exactly when the mutex is held; on success proceed as `lock_write`. -/
def try_lock_write (W : Nat) (l : SeqLock α) : Option (SeqLock α × Guard) :=
  if l.mutexHeld then none else some (lock_write W l)

/-- Writing through the guard's `DerefMut` impl (lines 239-244): replace the
protected datum. -/
def guard_write (l : SeqLock α) (v : α) : SeqLock α :=
  { l with data := v }

/-- Rust `Drop for SeqLockGuard` (lines 246-251): `end_write` with the captured
sequence value, then the `MutexGuard` field is dropped, releasing the
mutex. -/
def drop_guard (W : Nat) (l : SeqLock α) (g : Guard) : SeqLock α :=
  { end_write W l g.seq with mutexHeld := false }

/-- Rust `SeqLock::into_inner` (lines 204-206): return the protected datum. -/
def into_inner (l : SeqLock α) : α :=
  l.data

/-- One iteration of the `read` loop body (lines 117-150) executed against a
quiescent lock state: load `seq1`; if odd, yield and retry (`none`); else
copy the data, load `seq2`, and return the copy when `seq1 == seq2`. -/
def read_attempt (l : SeqLock α) : Option α :=
  let seq1 := l.seq
  if seq1 % 2 = 1 then none
  else
    let result := l.data
    let seq2 := l.seq
    if seq1 = seq2 then some result else none

/-- The `read` retry loop (lines 117-150), fuel-indexed: in a sequential
execution the state seen by each iteration is the same `l`. -/
def read : Nat → SeqLock α → Option α
  | 0, _ => none
  | fuel + 1, l =>
    match read_attempt l with
    | some v => some v
    | none => read fuel l

end Seq

namespace Conc

/-- Where the single writer is in its protocol: outside any call (`idle`),
holding the mutex before `begin_write` (`acquired`), between `begin_write`
and `end_write` with the captured sequence value (`writing s`, the live
`SeqLockGuard`), or after `end_write` but before the `MutexGuard` is dropped
(`ended`). -/
inductive WriterPhase where
  | idle : WriterPhase
  | acquired : WriterPhase
  | writing : Nat → WriterPhase
  | ended : WriterPhase
deriving Repr, DecidableEq

/-- Where a reader is in the `read` loop of `src/lib.rs` lines 117-150:
either at the top of the loop (`idle`) or mid-copy (`copying seq1 g1 acc`),
holding the sampled counter value `seq1`, the ghost (unwrapped) counter
value `g1` at the moment of that sample, and the words copied so far. -/
inductive ReaderState where
  | idle : ReaderState
  | copying : Nat → Nat → List Nat → ReaderState
deriving Repr, DecidableEq

/-- Global configuration: the fields of `SeqLock` (`seq`, `data` as a list
of machine words, the writer mutex bit) together with the writer's phase,
every reader's state, and ghost history: `gseq` (the counter without
wraparound), `committed` (the initial value followed by the data committed
by each `end_write`, in order) and `observed` (every value returned by a
completed `read`, in order). -/
structure Config where
  seq : Nat
  gseq : Nat
  data : List Nat
  mutexHeld : Bool
  writer : WriterPhase
  readers : Nat → ReaderState
  committed : List (List Nat)
  observed : List (List Nat)

/-- Update one reader's state. -/
def updR (f : Nat → ReaderState) (r : Nat) (s : ReaderState) : Nat → ReaderState :=
  fun r' => if r' = r then s else f r'

/-- Labels of the atomic steps of the machine. -/
inductive Event where
  | acquire : Event
  | beginW : Event
  | store : Event
  | endW : Event
  | release : Event
  | rstart : Nat → Event
  | rcopy : Nat → Event
  | rfail : Nat → Event
  | rret : Nat → Event
deriving Repr, DecidableEq

/-- Tests whether `e` is a step of the writer thread. -/
def Event.isWriter : Event → Bool
  | .acquire | .beginW | .store | .endW | .release => true
  | _ => false

/-- Tests whether `e` is a step of reader `r`'s `read` call. -/
def Event.isReader (r : Nat) : Event → Bool
  | .rstart r' | .rcopy r' | .rfail r' | .rret r' => r' = r
  | _ => false

/-- One atomic step of the interleaving machine for a `SeqLock` over `n`
machine words with counter modulus `W` (`W = 2 ^ w` for word width `w`).

Writer steps (`src/lib.rs` lines 86-91, 153-175, 186-200, 246-251):
`acquire` takes the free mutex (`mutex.lock()` / successful `try_lock()`);
`beginW` is `begin_write` — load the counter, store its wrapping successor
and capture it (one step: no other thread ever stores to the counter);
`store` is one word-sized piece of a `*guard = …` mutation through
`DerefMut`, legal only while the guard is live; `endW` is `end_write` —
store the wrapping successor of the *captured* value, record the now
consistent data as committed; `release` drops the inner `MutexGuard`.

Reader steps (lines 117-150): `rstart` loads `seq1` and proceeds only when
it is even (an odd value makes the reader yield and retry, which changes no
state); `rcopy` copies the next word of the volatile read of `data`;
after all `n` words, `rfail` discards the copy when the re-loaded counter
differs from `seq1`, and `rret` returns the copy when it is equal. -/
inductive Step (W n : Nat) : Event → Config → Config → Prop where
  | acquire (c : Config)
      (hm : c.mutexHeld = false) (hw : c.writer = .idle) :
      Step W n .acquire c { c with mutexHeld := true, writer := .acquired }
  | beginW (c : Config)
      (hw : c.writer = .acquired) :
      Step W n .beginW c
        { c with seq := (c.seq + 1) % W, gseq := c.gseq + 1,
                 writer := .writing ((c.seq + 1) % W) }
  | store (c : Config) (s i x : Nat)
      (hw : c.writer = .writing s) (hi : i < n) :
      Step W n .store c { c with data := c.data.set i x }
  | endW (c : Config) (s : Nat)
      (hw : c.writer = .writing s) :
      Step W n .endW c
        { c with seq := (s + 1) % W, gseq := c.gseq + 1, writer := .ended,
                 committed := c.committed ++ [c.data] }
  | release (c : Config)
      (hw : c.writer = .ended) :
      Step W n .release c { c with mutexHeld := false, writer := .idle }
  | rstart (c : Config) (r : Nat)
      (hr : c.readers r = .idle) (heven : c.seq % 2 = 0) :
      Step W n (.rstart r) c
        { c with readers := updR c.readers r (.copying c.seq c.gseq []) }
  | rcopy (c : Config) (r seq1 g1 : Nat) (acc : List Nat)
      (hr : c.readers r = .copying seq1 g1 acc) (hlen : acc.length < n) :
      Step W n (.rcopy r) c
        { c with readers := (updR c.readers r
            (.copying seq1 g1 (acc ++ [c.data.getD acc.length 0]))) }
  | rfail (c : Config) (r seq1 g1 : Nat) (acc : List Nat)
      (hr : c.readers r = .copying seq1 g1 acc) (hlen : acc.length = n)
      (hne : c.seq ≠ seq1) :
      Step W n (.rfail r) c { c with readers := updR c.readers r .idle }
  | rret (c : Config) (r seq1 g1 : Nat) (acc : List Nat)
      (hr : c.readers r = .copying seq1 g1 acc) (hlen : acc.length = n)
      (heq : c.seq = seq1) :
      Step W n (.rret r) c
        { c with readers := updR c.readers r .idle,
                 observed := c.observed ++ [acc] }

/-- The configuration produced by `SeqLock::new(init)` (lines 97-103):
counter 0, mutex free, everyone idle; the initial value counts as the one
committed value. -/
def initConfig (init : List Nat) : Config where
  seq := 0
  gseq := 0
  data := init
  mutexHeld := false
  writer := .idle
  readers := fun _ => .idle
  committed := [init]
  observed := []

/-- Configurations reachable from `initConfig init` by interleaved steps. -/
def Reachable (W n : Nat) (init : List Nat) (c : Config) : Prop :=
  Relation.ReflTransGen (fun a b => ∃ e, Step W n e a b) (initConfig init) c

/-- Rust `SeqLock::into_inner` (lines 204-206): return the protected datum. -/
def into_inner (c : Config) : List Nat :=
  c.data

/-- The inductive invariant of the machine.

* `seq_mod`: the stored counter is the ghost counter reduced mod `W`;
* `parity`: the ghost counter is odd exactly while a write is in progress
  (between `begin_write` and `end_write`);
* `captured`: the sequence value captured by the live guard is the current
  counter value;
* `mutex`: the mutex is held exactly while the writer is anywhere inside
  `lock_write`…drop;
* `data_len`, `committed_len`: all values have `n` words;
* `data_comm`: outside a write, the data cell holds the most recently
  committed value;
* `rdr`: a mid-copy reader sampled an even counter, and as long as the ghost
  counter still has the sampled value (no store to the counter happened),
  its partial copy agrees with the data cell. -/
structure Inv (W n : Nat) (c : Config) : Prop where
  seq_mod : c.seq = c.gseq % W
  parity : c.gseq % 2 = 1 ↔ ∃ s, c.writer = .writing s
  captured : ∀ s, c.writer = .writing s → s = c.seq
  mutex : c.mutexHeld = true ↔ c.writer ≠ .idle
  data_len : c.data.length = n
  committed_len : ∀ v ∈ c.committed, v.length = n
  data_comm : (∀ s, c.writer ≠ .writing s) → c.committed.getLast? = some c.data
  rdr : ∀ r seq1 g1 acc, c.readers r = .copying seq1 g1 acc →
      g1 % 2 = 0 ∧ seq1 = g1 % W ∧ g1 ≤ c.gseq ∧ acc.length ≤ n ∧
      (c.gseq = g1 → acc = c.data.take acc.length)

/-- The configuration reached from `new [5]` (with `W = 4`, `n = 1`) by the
writer acquiring the gate. -/
def exAcq : Config :=
  { initConfig [5] with mutexHeld := true, writer := .acquired }

/-- The configuration reached from `new [5]` by reader 0 sampling the even
counter and starting its copy. -/
def exRd : Config :=
  { initConfig [5] with readers := (updR (initConfig [5]).readers 0 (.copying 0 0 [])) }

/-- Reader 0 of `new [5]` after copying the single word: poised at the
second counter load. -/
def exRd2 : Config :=
  { exRd with readers := (updR exRd.readers 0 (.copying 0 0 [5])) }

/-- Reader 0 of `new [5]` having returned `[5]`. -/
def exRd3 : Config :=
  { exRd2 with readers := (updR exRd2.readers 0 .idle),
               observed := exRd2.observed ++ [[5]] }


/-- The `usize` wrap modulus on the common 64-bit platforms. -/
def W64 : Nat := 2 ^ 64

/-- Claim C1 exactly as stated, for counter modulus `W`, `n`-word values and
initial value `init`: along every interleaving of the one writer and the
readers, every value returned by `read` is one that was fully committed by a
completed write (or the initial value). -/
def NoTornReads (W n : Nat) (init : List Nat) : Prop :=
  ∀ c, Reachable W n init c → ∀ v ∈ c.observed, v ∈ c.committed

/-- A family of configurations: reader 0 frozen mid-copy (it sampled
`seq1 = 0` at ghost time 0 and has copied the single word `0` so far), the
writer idle at ghost time `g` with data `d` and committed history `comm`. -/
def wcfg (g : Nat) (d : List Nat) (comm : List (List Nat)) : Config where
  seq := g % W64
  gseq := g
  data := d
  mutexHeld := false
  writer := .idle
  readers := updR (updR (fun _ => .idle) 0 (.copying 0 0 [])) 0 (.copying 0 0 [0])
  committed := comm
  observed := []

/-- The committed history after the full counterexample trace: the initial
value, then `2 ^ 63` committed writes of `[1, 1]`. -/
def ctrComm : List (List Nat) :=
  ([[0, 0]] ++ [[1, 1]]) ++ List.replicate (2 ^ 63 - 1) [1, 1]

/-- The configuration after the writer has completed `2 ^ 63` writes — one
full wrap of the 64-bit counter — while reader 0 sat mid-copy. -/
def ctrB : Config := wcfg (0 + 2 + 2 * (2 ^ 63 - 1)) [1, 1] ctrComm

/-- Reader 0 has now copied the second word, producing the torn value
`[0, 1]`: word 0 from the initial value, word 1 from the last write. -/
def ctrC3 : Config :=
  { ctrB with readers := (updR ctrB.readers 0 (.copying 0 0 [0, 1])) }

/-- Reader 0's second counter load returns 0 again (full wrap), so it
returns the torn value `[0, 1]`. -/
def ctrC4 : Config :=
  { ctrC3 with readers := (updR ctrC3.readers 0 .idle),
               observed := ctrC3.observed ++ [[0, 1]] }

end Conc

section SeqTheorems

open Seq

/-- Claim C3. A completed write advances the counter by exactly 2 modulo
`2 ^ w`, for every starting counter value `s = l.seq` (including values at
the top of the unsigned range): `begin_write` stores and returns
`s + 1` wrapping, and `end_write captured` stores `captured + 1` wrapping,
computed from the captured argument alone (for an arbitrary intermediate
state `t`, so the shared counter is never re-read). -/
theorem C3_completed_write_advances_by_two {α : Type} (w : Nat) (l : SeqLock α) :
    (begin_write (2 ^ w) l).1 = (l.seq + 1) % 2 ^ w ∧
    ((begin_write (2 ^ w) l).2).seq = (l.seq + 1) % 2 ^ w ∧
    (∀ (t : SeqLock α) (captured : Nat),
      (end_write (2 ^ w) t captured).seq = (captured + 1) % 2 ^ w) ∧
    (end_write (2 ^ w) (begin_write (2 ^ w) l).2 (begin_write (2 ^ w) l).1).seq
      = (l.seq + 2) % 2 ^ w := by
  refine ⟨rfl, rfl, fun t captured => rfl, ?_⟩
  show ((l.seq + 1) % 2 ^ w + 1) % 2 ^ w = (l.seq + 2) % 2 ^ w
  rw [Nat.mod_add_mod]

/-- Claim C5. With no concurrent writer the counter is even and stable, so the
very first iteration of the `read` loop returns the stored datum (for any
remaining fuel, i.e. the loop terminates at once); in particular
`read (new 5) = 5`, and after acquiring a write guard, storing `6` through
it and dropping the guard, `read` returns `6`. -/
theorem C5_sequential_read_returns_value {α : Type} (l : SeqLock α)
    (h : l.seq % 2 = 0) (fuel : Nat) :
    read (fuel + 1) l = some l.data
    ∧ read 1 (new (5 : Nat)) = some 5
    ∧ read 1 (drop_guard (2 ^ 64)
        (guard_write (lock_write (2 ^ 64) (new (5 : Nat))).1 6)
        (lock_write (2 ^ 64) (new (5 : Nat))).2) = some 6 := by
  refine ⟨?_, by decide, by decide⟩
  have ha : read_attempt l = some l.data := by
    simp [read_attempt, h]
  simp [Seq.read, ha]

/-- Witness for C5 at the concrete lock `new 7` with fuel `1`. -/
theorem C5_sequential_read_witness :
    read 1 (new (7 : Nat)) = some 7
    ∧ read 1 (new (5 : Nat)) = some 5
    ∧ read 1 (drop_guard (2 ^ 64)
        (guard_write (lock_write (2 ^ 64) (new (5 : Nat))).1 6)
        (lock_write (2 ^ 64) (new (5 : Nat))).2) = some 6 :=
  C5_sequential_read_returns_value (new (7 : Nat)) rfl 0

/-- Claim C6. `try_lock_write` returns `none` iff the writer mutex is held
(i.e. another write guard is outstanding); it is a total function (no
blocking, no retry); on success it behaves identically to `lock_write`; and
called on the state left by dropping a guard (which releases the mutex) it
succeeds. -/
theorem C6_try_lock_write_iff {α : Type} (W : Nat) (l l' : SeqLock α) (g : Guard) :
    (try_lock_write W l = none ↔ l.mutexHeld = true)
    ∧ (l.mutexHeld = false → try_lock_write W l = some (lock_write W l))
    ∧ try_lock_write W (drop_guard W l' g) = some (lock_write W (drop_guard W l' g)) := by
  refine ⟨?_, fun h => ?_, rfl⟩
  · cases hb : l.mutexHeld <;> simp [try_lock_write, hb]
  · simp [try_lock_write, h]

/-- Witness for C6: on `new 3` (mutex free) `try_lock_write` succeeds and
agrees with `lock_write`; on the locked intermediate state it fails. -/
theorem C6_try_lock_write_witness :
    (try_lock_write 4 ((lock_write 4 (new (3 : Nat))).1) = none
      ↔ ((lock_write 4 (new (3 : Nat))).1).mutexHeld = true)
    ∧ try_lock_write 4 (new (3 : Nat)) = some (lock_write 4 (new (3 : Nat))) :=
  ⟨(C6_try_lock_write_iff 4 (lock_write 4 (new (3 : Nat))).1 (new 3) ⟨0⟩).1,
   (C6_try_lock_write_iff 4 (new (3 : Nat)) (new 3) ⟨0⟩).2.1 rfl⟩

end SeqTheorems

namespace Conc

theorem updR_same (f : Nat → ReaderState) (r : Nat) (s : ReaderState) :
    updR f r s r = s := by
  simp [updR]

theorem updR_ne (f : Nat → ReaderState) (r : Nat) (s : ReaderState)
    {r' : Nat} (h : r' ≠ r) : updR f r s r' = f r' := by
  simp [updR, h]

theorem take_snoc_getD (l : List Nat) (i : Nat) (h : i < l.length) :
    l.take i ++ [l.getD i 0] = l.take (i + 1) := by
  induction l generalizing i with
  | nil => simp at h
  | cons a t ih =>
    cases i with
    | zero => simp
    | succ j =>
      simp only [List.take_succ_cons, List.getD_cons_succ, List.cons_append,
        List.cons.injEq, true_and]
      exact ih j (by simpa using h)

theorem inv_init (W n : Nat) (init : List Nat) (hlen : init.length = n) :
    Inv W n (initConfig init) := by
  refine ⟨(Nat.zero_mod W).symm, ?_, ?_, ?_, hlen, ?_, fun _ => rfl, ?_⟩
  · simp [initConfig]
  · intro s hs; simp [initConfig] at hs
  · simp [initConfig]
  · intro v hv
    simp [initConfig] at hv
    simp [hv, hlen]
  · intro r seq1 g1 acc h
    simp [initConfig] at h

theorem inv_step {W n : Nat} (hW2 : 2 ∣ W) {e : Event} {c c' : Config}
    (hs : Step W n e c c') (h : Inv W n c) : Inv W n c' := by
  obtain ⟨hseq, hpar, hcap, hmut, hdl, hcl, hdc, hrd⟩ := h
  cases hs with
  | acquire c hm hw =>
    refine ⟨hseq, ?_, ?_, ?_, hdl, hcl, ?_, hrd⟩
    · constructor
      · intro h1
        obtain ⟨s, hs2⟩ := hpar.mp h1
        rw [hw] at hs2
        simp at hs2
      · rintro ⟨s, hs2⟩
        simp at hs2
    · intro s hs2; simp at hs2
    · simp
    · intro _; exact hdc (fun s => by simp [hw])
  | beginW c hw =>
    have heven : c.gseq % 2 = 0 := by
      rcases Nat.mod_two_eq_zero_or_one c.gseq with h0 | h1
      · exact h0
      · obtain ⟨s, hs2⟩ := hpar.mp h1
        rw [hw] at hs2
        simp at hs2
    refine ⟨?_, ?_, ?_, ?_, hdl, hcl, ?_, ?_⟩
    · show (c.seq + 1) % W = (c.gseq + 1) % W
      rw [hseq, Nat.mod_add_mod]
    · exact ⟨fun _ => ⟨_, rfl⟩, fun _ => show (c.gseq + 1) % 2 = 1 by omega⟩
    · intro s hs2
      injection hs2 with h2
      exact h2.symm
    · exact ⟨fun _ => by simp, fun _ => hmut.mpr (by rw [hw]; simp)⟩
    · intro hnw; exact absurd rfl (hnw _)
    · intro r s1 g1 acc hr
      obtain ⟨he, hs1, hle, hla, _⟩ := hrd r s1 g1 acc hr
      exact ⟨he, hs1, show g1 ≤ c.gseq + 1 by omega, hla,
        fun hgg => absurd (show c.gseq + 1 = g1 from hgg) (by omega)⟩
  | store c s i x hw hi =>
    have hodd : c.gseq % 2 = 1 := hpar.mpr ⟨s, hw⟩
    refine ⟨hseq, hpar, hcap, hmut, by simp [hdl], hcl, ?_, ?_⟩
    · intro hnw; exact absurd hw (hnw s)
    · intro r s1 g1 acc hr
      obtain ⟨he, hs1, hle, hla, _⟩ := hrd r s1 g1 acc hr
      exact ⟨he, hs1, hle, hla,
        fun hgg => absurd (show c.gseq = g1 from hgg) (by omega)⟩
  | endW c s hw =>
    have hodd : c.gseq % 2 = 1 := hpar.mpr ⟨s, hw⟩
    refine ⟨?_, ?_, ?_, ?_, hdl, ?_, ?_, ?_⟩
    · show (s + 1) % W = (c.gseq + 1) % W
      rw [hcap s hw, hseq, Nat.mod_add_mod]
    · constructor
      · intro h1
        exact absurd (show (c.gseq + 1) % 2 = 1 from h1) (by omega)
      · rintro ⟨s', hs2⟩; simp at hs2
    · intro s' hs2; simp at hs2
    · exact ⟨fun _ => by simp, fun _ => hmut.mpr (by rw [hw]; simp)⟩
    · intro v hv
      rcases List.mem_append.mp hv with hv1 | hv2
      · exact hcl v hv1
      · rw [List.mem_singleton.mp hv2]; exact hdl
    · intro _
      exact List.getLast?_concat c.committed
    · intro r s1 g1 acc hr
      obtain ⟨he, hs1, hle, hla, _⟩ := hrd r s1 g1 acc hr
      exact ⟨he, hs1, show g1 ≤ c.gseq + 1 by omega, hla,
        fun hgg => absurd (show c.gseq + 1 = g1 from hgg) (by omega)⟩
  | release c hw =>
    refine ⟨hseq, ?_, ?_, ?_, hdl, hcl, ?_, hrd⟩
    · constructor
      · intro h1
        obtain ⟨s, hs2⟩ := hpar.mp h1
        rw [hw] at hs2
        simp at hs2
      · rintro ⟨s, hs2⟩; simp at hs2
    · intro s hs2; simp at hs2
    · simp
    · intro _; exact hdc (fun s => by simp [hw])
  | rstart c r hr heven =>
    refine ⟨hseq, hpar, hcap, hmut, hdl, hcl, hdc, ?_⟩
    intro r' s1 g1 acc hr'
    have hr2 : updR c.readers r (.copying c.seq c.gseq []) r'
        = .copying s1 g1 acc := hr'
    by_cases hrr : r' = r
    · subst hrr
      rw [updR_same] at hr2
      cases hr2
      refine ⟨?_, hseq, Nat.le_refl _, Nat.zero_le n, fun _ => rfl⟩
      rw [← Nat.mod_mod_of_dvd c.gseq hW2, ← hseq]
      exact heven
    · rw [updR_ne _ _ _ hrr] at hr2
      exact hrd r' s1 g1 acc hr2
  | rcopy c r seq1 g1 acc hr hlen =>
    refine ⟨hseq, hpar, hcap, hmut, hdl, hcl, hdc, ?_⟩
    intro r' s1' g1' acc' hr'
    have hr2 : updR c.readers r (.copying seq1 g1 (acc ++ [c.data.getD acc.length 0])) r'
        = .copying s1' g1' acc' := hr'
    by_cases hrr : r' = r
    · subst hrr
      rw [updR_same] at hr2
      cases hr2
      obtain ⟨he, hs1, hle, hla, himp⟩ := hrd _ seq1 g1 acc hr
      refine ⟨he, hs1, hle, ?_, ?_⟩
      · show (acc ++ [c.data.getD acc.length 0]).length ≤ n
        simp only [List.length_append, List.length_singleton]
        omega
      · intro hgg
        have hacc := himp (show c.gseq = g1 from hgg)
        have hlt : acc.length < c.data.length := by rw [hdl]; exact hlen
        show acc ++ [c.data.getD acc.length 0]
            = List.take (acc ++ [c.data.getD acc.length 0]).length c.data
        rw [List.length_append, List.length_singleton,
          ← take_snoc_getD c.data acc.length hlt, ← hacc]
    · rw [updR_ne _ _ _ hrr] at hr2
      exact hrd r' s1' g1' acc' hr2
  | rfail c r seq1 g1 acc hr hlen hne =>
    refine ⟨hseq, hpar, hcap, hmut, hdl, hcl, hdc, ?_⟩
    intro r' s1' g1' acc' hr'
    have hr2 : updR c.readers r .idle r' = .copying s1' g1' acc' := hr'
    by_cases hrr : r' = r
    · subst hrr
      rw [updR_same] at hr2
      simp at hr2
    · rw [updR_ne _ _ _ hrr] at hr2
      exact hrd r' s1' g1' acc' hr2
  | rret c r seq1 g1 acc hr hlen heq =>
    refine ⟨hseq, hpar, hcap, hmut, hdl, hcl, hdc, ?_⟩
    intro r' s1' g1' acc' hr'
    have hr2 : updR c.readers r .idle r' = .copying s1' g1' acc' := hr'
    by_cases hrr : r' = r
    · subst hrr
      rw [updR_same] at hr2
      simp at hr2
    · rw [updR_ne _ _ _ hrr] at hr2
      exact hrd r' s1' g1' acc' hr2

theorem inv_reachable {W n : Nat} (hW2 : 2 ∣ W) {init : List Nat}
    (hlen : init.length = n) {c : Config} (h : Reachable W n init c) :
    Inv W n c := by
  induction h with
  | refl => exact inv_init W n init hlen
  | tail _ hstep ih =>
    obtain ⟨e, he⟩ := hstep
    exact inv_step hW2 he ih

/-- If `b ≡ a (mod W)` and `b` lies within less than one full period above
`a`, then `b = a`. -/
theorem eq_of_mod_eq_of_lt_add {W a b : Nat} (hab : a ≤ b) (h2 : b < a + W)
    (h : b % W = a % W) : b = a := by
  obtain ⟨d, rfl⟩ := Nat.exists_eq_add_of_le hab
  have hme : Nat.ModEq W d 0 :=
    Nat.ModEq.add_left_cancel' a (by simpa using h)
  have hd0 : d % W = 0 := by simpa [Nat.ModEq] using hme
  have hdW : d < W := by omega
  rw [Nat.mod_eq_of_lt hdW] at hd0
  omega

theorem set_set_of_len2 : ∀ (d : List Nat), d.length = 2 →
    (d.set 0 1).set 1 1 = [1, 1]
  | [_, _], _ => rfl
  | [], h => absurd h (by simp)
  | [_], h => absurd h (by simp)
  | _ :: _ :: _ :: _, h => absurd h (by simp)

/-- One complete write cycle (lock, begin, store both words to 1, end,
release) from any quiescent configuration with two-word data. -/
theorem cycle_from (c : Config) (hm : c.mutexHeld = false)
    (hw : c.writer = .idle) (hd : c.data.length = 2) :
    Relation.ReflTransGen (fun a b => ∃ e, Step W64 2 e a b) c
      { c with seq := (c.seq + 2) % W64, gseq := c.gseq + 2, data := [1, 1],
               mutexHeld := false, writer := .idle,
               committed := c.committed ++ [[1, 1]] } := by
  have hset : (c.data.set 0 1).set 1 1 = [1, 1] := set_set_of_len2 c.data hd
  have s1 : Relation.ReflTransGen (fun a b => ∃ e, Step W64 2 e a b) c
      { c with mutexHeld := true, writer := .acquired } :=
    Relation.ReflTransGen.single ⟨_, Step.acquire c hm hw⟩
  have s2 : Relation.ReflTransGen (fun a b => ∃ e, Step W64 2 e a b) c
      { c with mutexHeld := true, writer := .writing ((c.seq + 1) % W64),
               seq := (c.seq + 1) % W64, gseq := c.gseq + 1 } :=
    s1.tail ⟨_, Step.beginW { c with mutexHeld := true, writer := .acquired } rfl⟩
  have s3 : Relation.ReflTransGen (fun a b => ∃ e, Step W64 2 e a b) c
      { c with mutexHeld := true, writer := .writing ((c.seq + 1) % W64),
               seq := (c.seq + 1) % W64, gseq := c.gseq + 1,
               data := c.data.set 0 1 } :=
    s2.tail ⟨_, Step.store _ ((c.seq + 1) % W64) 0 1 rfl (by decide)⟩
  have s4 : Relation.ReflTransGen (fun a b => ∃ e, Step W64 2 e a b) c
      { c with mutexHeld := true, writer := .writing ((c.seq + 1) % W64),
               seq := (c.seq + 1) % W64, gseq := c.gseq + 1,
               data := (c.data.set 0 1).set 1 1 } :=
    s3.tail ⟨_, Step.store _ ((c.seq + 1) % W64) 1 1 rfl (by decide)⟩
  have s5 : Relation.ReflTransGen (fun a b => ∃ e, Step W64 2 e a b) c
      { c with mutexHeld := true, writer := .ended,
               seq := ((c.seq + 1) % W64 + 1) % W64, gseq := c.gseq + 1 + 1,
               data := (c.data.set 0 1).set 1 1,
               committed := c.committed ++ [(c.data.set 0 1).set 1 1] } :=
    s4.tail ⟨_, Step.endW _ ((c.seq + 1) % W64) rfl⟩
  have s6 : Relation.ReflTransGen (fun a b => ∃ e, Step W64 2 e a b) c
      { c with mutexHeld := false, writer := .idle,
               seq := ((c.seq + 1) % W64 + 1) % W64, gseq := c.gseq + 1 + 1,
               data := (c.data.set 0 1).set 1 1,
               committed := c.committed ++ [(c.data.set 0 1).set 1 1] } :=
    s5.tail ⟨_, Step.release _ rfl⟩
  have heq :
      ({ c with mutexHeld := false, writer := .idle,
                seq := ((c.seq + 1) % W64 + 1) % W64, gseq := c.gseq + 1 + 1,
                data := (c.data.set 0 1).set 1 1,
                committed := c.committed ++ [(c.data.set 0 1).set 1 1] } : Config)
      = { c with seq := (c.seq + 2) % W64, gseq := c.gseq + 2, data := [1, 1],
                 mutexHeld := false, writer := .idle,
                 committed := c.committed ++ [[1, 1]] } := by
    rw [hset, Nat.mod_add_mod]
  rw [heq] at s6
  exact s6

/-- One complete write cycle expressed on the `wcfg` family. -/
theorem wcycle (g : Nat) (d : List Nat) (hd : d.length = 2)
    (comm : List (List Nat)) :
    Relation.ReflTransGen (fun a b => ∃ e, Step W64 2 e a b) (wcfg g d comm)
      (wcfg (g + 2) [1, 1] (comm ++ [[1, 1]])) := by
  have h := cycle_from (wcfg g d comm) rfl rfl hd
  have heq : ({ wcfg g d comm with
        seq := ((wcfg g d comm).seq + 2) % W64, gseq := (wcfg g d comm).gseq + 2,
        data := [1, 1], mutexHeld := false, writer := .idle,
        committed := (wcfg g d comm).committed ++ [[1, 1]] } : Config)
      = wcfg (g + 2) [1, 1] (comm ++ [[1, 1]]) := by
    simp [wcfg, Nat.mod_add_mod]
  rw [heq] at h
  exact h

/-- Chains `k` consecutive complete write cycles. -/
theorem cycles_from (k : Nat) : ∀ (g : Nat) (comm : List (List Nat)),
    Relation.ReflTransGen (fun a b => ∃ e, Step W64 2 e a b) (wcfg g [1, 1] comm)
      (wcfg (g + 2 * k) [1, 1] (comm ++ List.replicate k [1, 1])) := by
  induction k with
  | zero =>
    intro g comm
    simpa using Relation.ReflTransGen.refl
  | succ j ih =>
    intro g comm
    have h1 := wcycle g [1, 1] rfl comm
    have h2 := ih (g + 2) (comm ++ [[1, 1]])
    have h3 := h1.trans h2
    have e1 : g + 2 + 2 * j = g + 2 * (j + 1) := by ring
    have e2 : (comm ++ [[1, 1]]) ++ List.replicate j [1, 1]
        = comm ++ List.replicate (j + 1) [1, 1] := by
      rw [List.append_assoc, List.replicate_succ, List.singleton_append]
    rw [← e1, ← e2]
    exact h3

/-- Reader 0 of `new [0, 0]` samples the even counter and copies word 0. -/
theorem phase1 : Relation.ReflTransGen (fun a b => ∃ e, Step W64 2 e a b)
    (initConfig [0, 0]) (wcfg 0 [0, 0] [[0, 0]]) :=
  Relation.ReflTransGen.tail
    (Relation.ReflTransGen.single ⟨_, Step.rstart (initConfig [0, 0]) 0 rfl rfl⟩)
    ⟨_, Step.rcopy _ 0 0 0 [] rfl (by decide)⟩

/-- The full counterexample trace: reader 0 copies word 0 of the initial
value, the writer completes `2 ^ 63` writes of `[1, 1]` (wrapping the
64-bit counter exactly once back to 0), reader 0 copies word 1 of the new
value, and its second counter load agrees with the first, so it returns the
torn value `[0, 1]`. -/
theorem ctr_reach : Reachable W64 2 [0, 0] ctrC4 := by
  have h1 := phase1
  have h2 := wcycle 0 [0, 0] rfl [[0, 0]]
  have h3 := cycles_from (2 ^ 63 - 1) (0 + 2) ([[0, 0]] ++ [[1, 1]])
  have h4 : Step W64 2 (.rcopy 0) ctrB ctrC3 :=
    Step.rcopy ctrB 0 0 0 [0] rfl (by decide)
  have h5 : Step W64 2 (.rret 0) ctrC3 ctrC4 :=
    Step.rret ctrC3 0 0 0 [0, 1] rfl rfl (by decide)
  exact ((h1.trans (h2.trans h3)).tail ⟨_, h4⟩).tail ⟨_, h5⟩

end Conc

section ConcTheorems

open Conc

/-- Claim C1, amended: In every interleaving of the one writer and any number
of readers: whenever a reader is about to return — it has copied all `n`
words into `acc` after sampling `seq1`, and the second counter load agrees
(`c.seq = seq1`) — *and* the counter was stored to fewer than `W` times
between the two counter loads (`c.gseq < g1 + W`, i.e. the counter did not
wrap through a full cycle during this read attempt), the returned value is
one that was fully committed by a completed write (or the initial value),
and the `rret` step records exactly that value.  The wrap hypothesis is
necessary: see `C1_counterexample_wraparound`. -/
theorem C1_no_torn_read_amended {W n : Nat} (hW2 : 2 ∣ W) {init : List Nat}
    (hinit : init.length = n) {c : Config} (hre : Reachable W n init c)
    {r seq1 g1 : Nat} {acc : List Nat}
    (hr : c.readers r = .copying seq1 g1 acc) (hlen : acc.length = n)
    (hseq2 : c.seq = seq1) (hnowrap : c.gseq < g1 + W) :
    acc ∈ c.committed
    ∧ ∀ c', Step W n (.rret r) c c' → c'.observed = c.observed ++ [acc] := by
  have inv := inv_reachable hW2 hinit hre
  obtain ⟨he, hs1, hle, _, himp⟩ := inv.rdr r seq1 g1 acc hr
  have hgg : c.gseq = g1 := by
    apply eq_of_mod_eq_of_lt_add hle hnowrap
    rw [← hs1, ← hseq2, inv.seq_mod]
  have hacc : acc = c.data := by
    rw [himp hgg, hlen, ← inv.data_len, List.take_length]
  have hnw : ∀ s, c.writer ≠ .writing s := by
    intro s hs
    have hodd := inv.parity.mpr ⟨s, hs⟩
    omega
  constructor
  · rw [hacc]
    exact List.mem_of_mem_getLast? (inv.data_comm hnw)
  · intro c' hstep
    cases hstep with
    | rret c r seq1' g1' acc' hr' hlen' heq' =>
      rw [hr] at hr'
      injection hr' with h1 h2 h3
      rw [h3]

/-- Claim C2. In every reachable configuration the counter is even iff no
write is in progress and odd iff one is; construction sets it to 0; a
`begin_write` step advances it by exactly 1 (wrapping), leaving it odd, and
an `end_write` step advances it by exactly 1 (wrapping), leaving it even. -/
theorem C2_counter_parity_invariant {W n : Nat} (hW2 : 2 ∣ W) {init : List Nat}
    (hinit : init.length = n) {c : Config} (hre : Reachable W n init c) :
    ((c.seq % 2 = 0 ↔ ∀ s, c.writer ≠ .writing s)
      ∧ (c.seq % 2 = 1 ↔ ∃ s, c.writer = .writing s))
    ∧ (initConfig init).seq = 0
    ∧ (∀ c', Step W n .beginW c c' → c'.seq = (c.seq + 1) % W ∧ c'.seq % 2 = 1)
    ∧ (∀ c', Step W n .endW c c' → c'.seq = (c.seq + 1) % W ∧ c'.seq % 2 = 0) := by
  have inv := inv_reachable hW2 hinit hre
  have hsp : c.seq % 2 = c.gseq % 2 := by
    rw [inv.seq_mod]
    exact Nat.mod_mod_of_dvd c.gseq hW2
  have iff2 : c.seq % 2 = 1 ↔ ∃ s, c.writer = .writing s := by
    rw [hsp]; exact inv.parity
  have iff1 : c.seq % 2 = 0 ↔ ∀ s, c.writer ≠ .writing s := by
    constructor
    · intro h0 s hs
      have h1 := iff2.mpr ⟨s, hs⟩
      omega
    · intro hns
      rcases Nat.mod_two_eq_zero_or_one c.seq with h0 | h1
      · exact h0
      · obtain ⟨s, hs⟩ := iff2.mp h1
        exact absurd hs (hns s)
  refine ⟨⟨iff1, iff2⟩, rfl, ?_, ?_⟩
  · intro c' hstep
    cases hstep with
    | beginW c hw =>
      have hev : c.seq % 2 = 0 := iff1.mpr (fun s hs => by rw [hw] at hs; simp at hs)
      refine ⟨rfl, ?_⟩
      show (c.seq + 1) % W % 2 = 1
      rw [Nat.mod_mod_of_dvd _ hW2]
      omega
  · intro c' hstep
    cases hstep with
    | endW c s hw =>
      have hodd : c.seq % 2 = 1 := iff2.mpr ⟨s, hw⟩
      have hcs : s = c.seq := inv.captured s hw
      constructor
      · show (s + 1) % W = (c.seq + 1) % W
        rw [hcs]
      · show (s + 1) % W % 2 = 0
        rw [Nat.mod_mod_of_dvd _ hW2, hcs]
        omega

/-- Witness for C2 at the initial configuration of `new [5]` with `W = 4`,
`n = 1`. -/
theorem C2_counter_parity_witness :
    (((initConfig [5]).seq % 2 = 0 ↔ ∀ s, (initConfig [5]).writer ≠ .writing s)
      ∧ ((initConfig [5]).seq % 2 = 1 ↔ ∃ s, (initConfig [5]).writer = .writing s))
    ∧ (initConfig [5]).seq = 0
    ∧ (∀ c', Step 4 1 .beginW (initConfig [5]) c' →
        c'.seq = ((initConfig [5]).seq + 1) % 4 ∧ c'.seq % 2 = 1)
    ∧ (∀ c', Step 4 1 .endW (initConfig [5]) c' →
        c'.seq = ((initConfig [5]).seq + 1) % 4 ∧ c'.seq % 2 = 0) :=
  C2_counter_parity_invariant (by decide) rfl Relation.ReflTransGen.refl

/-- Claim C4. A `read` call returns only from a state in which the counter
value `seq1` it sampled before copying was even, and the counter value
sampled after the copy equals `seq1`; the returned value is exactly the
completed copy.  (The step relation offers no other returning transition:
`rfail` discards the copy and retries.) -/
theorem C4_read_returns_only_consistent {W n : Nat} (hW2 : 2 ∣ W)
    {init : List Nat} (hinit : init.length = n) {c c' : Config} {r : Nat}
    (hre : Reachable W n init c) (hstep : Step W n (.rret r) c c') :
    ∃ seq1 g1 acc, c.readers r = .copying seq1 g1 acc ∧ seq1 % 2 = 0
      ∧ c.seq = seq1 ∧ acc.length = n
      ∧ c'.observed = c.observed ++ [acc] := by
  have inv := inv_reachable hW2 hinit hre
  cases hstep with
  | rret c r seq1 g1 acc hr hlen heq =>
    obtain ⟨he, hs1, _, _, _⟩ := inv.rdr r seq1 g1 acc hr
    refine ⟨seq1, g1, acc, hr, ?_, heq, hlen, rfl⟩
    rw [hs1, Nat.mod_mod_of_dvd _ hW2]
    exact he

/-- Claim C7. Guard destruction protocol: in every reachable configuration,
(i) the gate is never free while the counter protocol is anywhere mid-write
(no gate release without the prior counter bump); (ii) an `end_write` step
happens only with a live guard, stores the wrapping successor of the
*captured* sequence value, and leaves the gate still held; (iii) once
`end_write` has run, the only step available to the writer is releasing the
gate (no counter bump without the subsequent gate release); (iv) the release
step itself requires `end_write` to have already run and only then frees the
gate, touching neither counter nor data. -/
theorem C7_drop_end_write_then_release {W n : Nat} (hW2 : 2 ∣ W)
    {init : List Nat} (hinit : init.length = n) {c : Config}
    (hre : Reachable W n init c) :
    (c.mutexHeld = false → c.writer = .idle)
    ∧ (∀ c', Step W n .endW c c' → ∃ s, c.writer = .writing s
        ∧ c'.seq = (s + 1) % W ∧ c'.mutexHeld = true ∧ c'.writer = .ended)
    ∧ (∀ e c', Step W n e c c' → c.writer = .ended → e.isWriter = true →
        e = .release)
    ∧ (∀ c', Step W n .release c c' → c.writer = .ended
        ∧ c'.mutexHeld = false ∧ c'.seq = c.seq ∧ c'.data = c.data) := by
  have inv := inv_reachable hW2 hinit hre
  refine ⟨?_, ?_, ?_, ?_⟩
  · intro hm
    by_contra hne
    have h2 := inv.mutex.mpr hne
    rw [hm] at h2
    exact Bool.noConfusion h2
  · intro c' hstep
    cases hstep with
    | endW c s hw =>
      refine ⟨s, hw, rfl, ?_, rfl⟩
      show c.mutexHeld = true
      exact inv.mutex.mpr (by rw [hw]; simp)
  · intro e c' hstep hend hwr
    cases hstep with
    | acquire c hm hw => rw [hend] at hw; simp at hw
    | beginW c hw => rw [hend] at hw; simp at hw
    | store c s i x hw hi => rw [hend] at hw; simp at hw
    | endW c s hw => rw [hend] at hw; simp at hw
    | release c hw => rfl
    | rstart c r hr heven => simp [Event.isWriter] at hwr
    | rcopy c r seq1 g1 acc hr hlen => simp [Event.isWriter] at hwr
    | rfail c r seq1 g1 acc hr hlen hne => simp [Event.isWriter] at hwr
    | rret c r seq1 g1 acc hr hlen heq => simp [Event.isWriter] at hwr
  · intro c' hstep
    cases hstep with
    | release c hw => exact ⟨hw, rfl, rfl, rfl⟩

/-- Witness for C7 at the initial configuration: the gate is free there, so
the writer is idle. -/
theorem C7_drop_end_write_witness : (initConfig [5]).writer = .idle :=
  (@C7_drop_end_write_then_release 4 1 (by decide) [5] rfl (initConfig [5])
    Relation.ReflTransGen.refl).1 rfl

/-- Claim C8. When the lock can be consumed (exclusive ownership, so no guard
is outstanding and the gate is free), `into_inner` returns exactly the last
committed value: the initial value if no write completed, otherwise the
value committed by the most recent completed write. -/
theorem C8_into_inner_last_committed {W n : Nat} (hW2 : 2 ∣ W)
    {init : List Nat} (hinit : init.length = n) {c : Config}
    (hre : Reachable W n init c) (hm : c.mutexHeld = false) :
    c.committed.getLast? = some (into_inner c)
    ∧ into_inner c ∈ c.committed := by
  have inv := inv_reachable hW2 hinit hre
  have hidle : c.writer = .idle := by
    by_contra hne
    have h2 := inv.mutex.mpr hne
    rw [hm] at h2
    exact Bool.noConfusion h2
  have hlast := inv.data_comm (fun s hs => by rw [hidle] at hs; simp at hs)
  exact ⟨hlast, List.mem_of_mem_getLast? hlast⟩

/-- Witness for C8 at the initial configuration of `new [5]`. -/
theorem C8_into_inner_witness :
    (initConfig [5]).committed.getLast? = some (into_inner (initConfig [5]))
    ∧ into_inner (initConfig [5]) ∈ (initConfig [5]).committed :=
  @C8_into_inner_last_committed 4 1 (by decide) [5] rfl (initConfig [5])
    Relation.ReflTransGen.refl rfl

/-- Claim C9. Acquiring write access does not modify the protected value:
a gate-acquisition step changes neither data, counter nor committed
history, and a `begin_write` step changes neither data, gate nor committed
history; in the sequential API model, `lock_write` and a successful
`try_lock_write` leave the stored datum unchanged. -/
theorem C9_lock_acquisition_preserves_data (W n : Nat) :
    (∀ c c', Step W n .acquire c c' → c'.data = c.data ∧ c'.seq = c.seq
      ∧ c'.gseq = c.gseq ∧ c'.committed = c.committed)
    ∧ (∀ c c', Step W n .beginW c c' → c'.data = c.data
      ∧ c'.mutexHeld = c.mutexHeld ∧ c'.committed = c.committed)
    ∧ (∀ {α : Type} (l : Seq.SeqLock α), ((Seq.lock_write W l).1).data = l.data
      ∧ ∀ p, Seq.try_lock_write W l = some p → (p.1).data = l.data) := by
  refine ⟨?_, ?_, ?_⟩
  · intro c c' hstep
    cases hstep with
    | acquire c hm hw => exact ⟨rfl, rfl, rfl, rfl⟩
  · intro c c' hstep
    cases hstep with
    | beginW c hw => exact ⟨rfl, rfl, rfl⟩
  · intro α l
    refine ⟨rfl, ?_⟩
    intro p hp
    cases hb : l.mutexHeld with
    | true => simp [Seq.try_lock_write, hb] at hp
    | false =>
      simp [Seq.try_lock_write, hb] at hp
      rw [← hp]
      rfl

/-- Witness for C9: the acquire step out of the initial configuration keeps
the data intact. -/
theorem C9_lock_acquisition_witness : exAcq.data = (initConfig [5]).data :=
  ((C9_lock_acquisition_preserves_data 4 1).1 (initConfig [5]) exAcq
    (Step.acquire (initConfig [5]) rfl rfl)).1

/-- Claim C10. `read` has no effect on the lock: every reader step leaves the
counter (real and ghost), the data, the gate, the writer phase and the
committed history unchanged — readers only load and copy, never store to
any field of the lock. -/
theorem C10_read_leaves_state_unchanged {W n : Nat} {e : Event} {r : Nat}
    {c c' : Config} (hs : Step W n e c c') (he : e.isReader r = true) :
    c'.seq = c.seq ∧ c'.gseq = c.gseq ∧ c'.data = c.data
    ∧ c'.mutexHeld = c.mutexHeld ∧ c'.writer = c.writer
    ∧ c'.committed = c.committed := by
  cases hs with
  | acquire c hm hw => simp [Event.isReader] at he
  | beginW c hw => simp [Event.isReader] at he
  | store c s i x hw hi => simp [Event.isReader] at he
  | endW c s hw => simp [Event.isReader] at he
  | release c hw => simp [Event.isReader] at he
  | rstart c r hr heven => exact ⟨rfl, rfl, rfl, rfl, rfl, rfl⟩
  | rcopy c r seq1 g1 acc hr hlen => exact ⟨rfl, rfl, rfl, rfl, rfl, rfl⟩
  | rfail c r seq1 g1 acc hr hlen hne => exact ⟨rfl, rfl, rfl, rfl, rfl, rfl⟩
  | rret c r seq1 g1 acc hr hlen heq => exact ⟨rfl, rfl, rfl, rfl, rfl, rfl⟩

/-- Witness for C10: the first read step of reader 0 out of the initial
configuration leaves all shared state unchanged. -/
theorem C10_read_leaves_state_witness :
    exRd.seq = (initConfig [5]).seq ∧ exRd.gseq = (initConfig [5]).gseq
    ∧ exRd.data = (initConfig [5]).data
    ∧ exRd.mutexHeld = (initConfig [5]).mutexHeld
    ∧ exRd.writer = (initConfig [5]).writer
    ∧ exRd.committed = (initConfig [5]).committed :=
  @C10_read_leaves_state_unchanged 4 1 (.rstart 0) 0 (initConfig [5]) exRd
    (Step.rstart (initConfig [5]) 0 rfl rfl) rfl

/-- Reader 0 of `new [5]` can reach its poised-to-return state `exRd2` in
two steps. -/
theorem exRd2_reach : Reachable 4 1 [5] exRd2 :=
  Relation.ReflTransGen.tail
    (Relation.ReflTransGen.single ⟨_, Step.rstart (initConfig [5]) 0 rfl rfl⟩)
    ⟨_, Step.rcopy exRd 0 0 0 [] rfl (by decide)⟩

/-- Witness for C1 (amended): reader 0's completed, consistent copy of
`new [5]` is the committed value `[5]`, and returning appends it to the
observation history. -/
theorem C1_no_torn_read_witness :
    [5] ∈ exRd2.committed
    ∧ ∀ c', Step 4 1 (.rret 0) exRd2 c' → c'.observed = exRd2.observed ++ [[5]] :=
  @C1_no_torn_read_amended 4 1 (by decide) [5] rfl exRd2 exRd2_reach 0 0 0 [5]
    rfl rfl rfl (by decide)

/-- Witness for C4: the concrete `rret` step of reader 0 out of `exRd2`. -/
theorem C4_read_returns_witness :
    ∃ seq1 g1 acc, exRd2.readers 0 = ReaderState.copying seq1 g1 acc
      ∧ seq1 % 2 = 0 ∧ exRd2.seq = seq1 ∧ acc.length = 1
      ∧ exRd3.observed = exRd2.observed ++ [acc] :=
  @C4_read_returns_only_consistent 4 1 (by decide) [5] rfl exRd2 exRd3 0
    exRd2_reach (Step.rret exRd2 0 0 0 [5] rfl rfl rfl)

/-- Claim C1 is false as stated: with the 64-bit `usize` counter, in the
interleaving of `ctr_reach` the reader returns `[0, 1]`, which mixes word 0
of the initial value `[0, 0]` with word 1 of the written value `[1, 1]` and
was never committed by any write — a torn read that the `seq1 == seq2`
check does not catch, because the counter wrapped through exactly one full
cycle between the reader's two counter loads. -/
theorem C1_counterexample_wraparound : ¬ NoTornReads W64 2 [0, 0] := by
  intro h
  have hmem := h ctrC4 ctr_reach [0, 1] (by decide)
  have hnot : ([0, 1] : List Nat) ∉ ctrComm := by
    intro hm
    rcases List.mem_append.mp hm with h1 | h2
    · rcases List.mem_append.mp h1 with h3 | h4
      · simp at h3
      · simp at h4
    · have h5 := List.eq_of_mem_replicate h2
      simp at h5
  exact hnot hmem

end ConcTheorems
